import Mathlib

/-!
Verification of the budget-timeline core of `api.py` (class `BudgetAPI`).

The functions `expand_recurring_event`, `get_events_in_range` and
`calculate_balance_timeline` are shallowly embedded below.  Python
`datetime` values produced by `datetime.fromisoformat('YYYY-MM-DD')`,
`datetime(year, month, day)` and addition of whole-day `timedelta`s are
always midnight timestamps, so they are modelled as calendar dates
(`Date`); `datetime` comparison is then the lexicographic order on
(year, month, day).  Python `float` amounts are modelled as rationals.
Python `//` and `%` (floor division, sign of divisor) are `Int.fdiv` and
`Int.fmod`.  The two `while` loops of `expand_recurring_event` can run
forever (e.g. for a negative interval), so they are embedded with a fuel
parameter; `none` means the fuel ran out before the loop finished
(or, for `expand_recurring_event` itself, that `recurrence_start` was
missing, where the Python code raises a `TypeError`).
-/

/-- A calendar date, as the (year, month, day) of a Python `datetime` at
midnight.  Python requires `1 ≤ year ≤ 9999`; the model leaves the year
unbounded. -/
@[ext]
structure Date where
  year : Int
  month : Nat
  day : Nat
deriving DecidableEq, Repr

/-- `datetime` comparison: lexicographic on (year, month, day). -/
def dateLE (a b : Date) : Prop :=
  a.year < b.year ∨ (a.year = b.year ∧
    (a.month < b.month ∨ (a.month = b.month ∧ a.day ≤ b.day)))

/-- Strict `datetime` comparison. -/
def dateLT (a b : Date) : Prop :=
  a.year < b.year ∨ (a.year = b.year ∧
    (a.month < b.month ∨ (a.month = b.month ∧ a.day < b.day)))

instance : LE Date := ⟨dateLE⟩

instance : LT Date := ⟨dateLT⟩

instance (a b : Date) : Decidable (a ≤ b) := by
  change Decidable (dateLE a b); unfold dateLE; infer_instance

instance (a b : Date) : Decidable (a < b) := by
  change Decidable (dateLT a b); unfold dateLT; infer_instance

/-- `min(a, b)` on `datetime`s (Python `min` returns the first argument
on ties). -/
def minDate (a b : Date) : Date := if a ≤ b then a else b

/-- The leap-year test of `api.py`:
`year % 4 == 0 and (year % 100 != 0 or year % 400 == 0)`. -/
def isLeap (y : Int) : Bool :=
  decide (Int.fmod y 4 = 0 ∧ (Int.fmod y 100 ≠ 0 ∨ Int.fmod y 400 = 0))

/-- The month-length list of `api.py`:
`[31, 29 if leap else 28, 31, 30, 31, 30, 31, 31, 30, 31, 30, 31]`. -/
def monthLengths (y : Int) : List Nat :=
  [31, if isLeap y then 29 else 28, 31, 30, 31, 30, 31, 31, 30, 31, 30, 31]

/-- `monthLengths[month - 1]`, the number of days of month `m` of year `y`
(the Python code only indexes the list with `m ∈ [1, 12]`). -/
def daysInMonth (y : Int) (m : Nat) : Nat := (monthLengths y).getD (m - 1) 0

/-- A (year, month, day) triple that denotes a real calendar date — what
Python's `datetime` constructor accepts. -/
def validDate (d : Date) : Prop :=
  1 ≤ d.month ∧ d.month ≤ 12 ∧ 1 ≤ d.day ∧ d.day ≤ daysInMonth d.year d.month

instance (d : Date) : Decidable (validDate d) := by
  unfold validDate; infer_instance

/-- The calendar day after `d`: the semantics of `d + timedelta(days=1)`. -/
def nextDay (d : Date) : Date :=
  if d.day < daysInMonth d.year d.month then ⟨d.year, d.month, d.day + 1⟩
  else if d.month < 12 then ⟨d.year, d.month + 1, 1⟩
  else ⟨d.year + 1, 1, 1⟩

/-- The calendar day before `d`: the semantics of `d - timedelta(days=1)`. -/
def prevDay (d : Date) : Date :=
  if 2 ≤ d.day then ⟨d.year, d.month, d.day - 1⟩
  else if 2 ≤ d.month then ⟨d.year, d.month - 1, daysInMonth d.year (d.month - 1)⟩
  else ⟨d.year - 1, 12, 31⟩

/-- `d + timedelta(days=n)` for a (possibly negative) whole number of
days. -/
def addDays (d : Date) (n : Int) : Date :=
  if 0 ≤ n then nextDay^[n.toNat] d else prevDay^[(-n).toNat] d

/-- The month-advancement block of `expand_recurring_event`
(`api.py` lines 182-186 / 224-228, and with `k = 3 * interval` lines
187-193 / 229-235):
`month = current.month + k; year = current.year + (month - 1) // 12;`
`month = ((month - 1) % 12) + 1; day = min(current.day, monthLengths[month - 1])`. -/
def addMonthsClamped (d : Date) (k : Int) : Date :=
  let m0 : Int := (d.month : Int) + k
  let y : Int := d.year + Int.fdiv (m0 - 1) 12
  let m : Nat := (Int.fmod (m0 - 1) 12 + 1).toNat
  ⟨y, m, min d.day (daysInMonth y m)⟩

/-- The year-advancement block of `expand_recurring_event`
(`api.py` lines 194-198 / 236-240). -/
def addYearsClamped (d : Date) (k : Int) : Date :=
  ⟨d.year + k, d.month, min d.day (daysInMonth (d.year + k) d.month)⟩

/-- One advancement step of the expansion cursor: the
`if pattern == 'daily': ... elif ... else: break` chain that appears
twice in `expand_recurring_event` (`api.py` lines 174-200 and 216-242).
`none` models the `break` taken for an unknown pattern. -/
def nextOccur (p : String) (interval : Int) (c : Date) : Option Date :=
  if p = "daily" then some (addDays c interval)
  else if p = "weekly" then some (addDays c (7 * interval))
  else if p = "biweekly" then some (addDays c 14)
  else if p = "monthly" then some (addMonthsClamped c interval)
  else if p = "quarterly" then some (addMonthsClamped c (3 * interval))
  else if p = "yearly" then some (addYearsClamped c interval)
  else none

/-- A row of `account_events` joined with its labels, as the dict handed
to `expand_recurring_event` / `get_events_in_range`.  The
`recurrence_interval` column is an SQL integer (default 1); `amount` is a
Python float, modelled as a rational. -/
structure Event where
  id : Nat
  description : String
  amount : ℚ
  event_date : Option Date
  is_recurring : Bool
  recurrence_pattern : String
  recurrence_interval : Int
  recurrence_start : Option Date
  recurrence_end : Option Date
  comment : Option String
  labels : List String
deriving DecidableEq, Repr

/-- The occurrence dicts built in `expand_recurring_event` (line 205) and
`get_events_in_range` (line 282).  The `date` field is the
`'%Y-%m-%d'`-formatted string in Python; formatting is injective on the
`datetime` domain, so it is modelled as the date itself. -/
structure Occurrence where
  id : Nat
  description : String
  amount : ℚ
  date : Date
  comment : Option String
  is_recurring : Bool
  labels : List String
deriving DecidableEq, Repr

/-- Build the occurrence dict for event `ev` on date `d`. -/
def mkOcc (ev : Event) (d : Date) (rec : Bool) : Occurrence :=
  { id := ev.id, description := ev.description, amount := ev.amount,
    date := d, comment := ev.comment, is_recurring := rec, labels := ev.labels }

/-- `interval = event['recurrence_interval'] or 1` (`api.py` line 168):
an interval of `0` (falsy in Python) is replaced by `1`; any other value,
negative included, is kept. -/
def effInterval (ev : Event) : Int :=
  if ev.recurrence_interval = 0 then 1 else ev.recurrence_interval

/-- The fast-forward loop of `expand_recurring_event` (lines 170-200):
`while current < start_date and current <= rec_end:` advance `current`,
`break`-ing on an unknown pattern.  Returns the final cursor; `none` when
the fuel is exhausted while the loop is still running. -/
def ffwd (p : String) (i : Int) (s recEnd : Date) : Nat → Date → Option Date
  | 0, _ => none
  | n + 1, c =>
    if c < s ∧ c ≤ recEnd then
      match nextOccur p i c with
      | some c2 => ffwd p i s recEnd n c2
      | none => some c
    else some c

/-- The emission loop of `expand_recurring_event` (lines 202-242):
`while current <= min(rec_end, end_date):` emit an occurrence when
`current >= start_date`, then advance, `break`-ing on an unknown
pattern.  `none` when the fuel is exhausted while the loop is still
running. -/
def emitOccs (ev : Event) (p : String) (i : Int) (s minD : Date) :
    Nat → Date → Option (List Occurrence)
  | 0, _ => none
  | n + 1, c =>
    if c ≤ minD then
      let acc := if s ≤ c then [mkOcc ev c true] else []
      match nextOccur p i c with
      | some c2 => (emitOccs ev p i s minD n c2).map (fun l => acc ++ l)
      | none => some acc
    else some []

/-- `expand_recurring_event(event, start_date, end_date)` (`api.py`
lines 157-244).  `rec_end` defaults to `end_date` when
`recurrence_end` is absent (line 162).  `none` models a run that does
not return normally: a missing `recurrence_start` (Python raises
`TypeError` at line 161) or fuel exhaustion in one of the two loops. -/
def expand_recurring_event (fuel : Nat) (ev : Event) (s e : Date) :
    Option (List Occurrence) :=
  match ev.recurrence_start with
  | none => none
  | some rs =>
    let recEnd := ev.recurrence_end.getD e
    let p := ev.recurrence_pattern
    let i := effInterval ev
    match ffwd p i s recEnd fuel rs with
    | none => none
    | some c => emitOccs ev p i s (minDate recEnd e) fuel c

/-- The per-event loop of `get_events_in_range` (lines 267-290): label
filtering, recurring-event expansion, one-off window test.  The order of
the produced occurrences is the event order, each recurring event
contributing its expansion as a block (`all_occurrences.extend`). -/
def collectOccs (fuel : Nat) (s e : Date) (fl : List String) :
    List Event → Option (List Occurrence)
  | [] => some []
  | ev :: rest =>
    if !fl.isEmpty && !(fl.any (fun l => ev.labels.contains l)) then
      collectOccs fuel s e fl rest
    else if ev.is_recurring then
      match expand_recurring_event fuel ev s e with
      | none => none
      | some occs => (collectOccs fuel s e fl rest).map (fun l => occs ++ l)
    else
      match ev.event_date with
      | some d =>
        if s ≤ d ∧ d ≤ e then
          (collectOccs fuel s e fl rest).map (fun l => mkOcc ev d false :: l)
        else collectOccs fuel s e fl rest
      | none => collectOccs fuel s e fl rest

/-- Occurrence order used by `all_occurrences.sort(key=lambda x: x['date'])`:
Python compares the `'%Y-%m-%d'` strings, whose lexicographic order
agrees with the date order on the 4-digit-year `datetime` domain. -/
def occDateLE (a b : Occurrence) : Prop := a.date ≤ b.date

instance : DecidableRel occDateLE := fun a b => by
  unfold occDateLE; infer_instance

/-- `get_events_in_range(start_date, end_date, label_filter)` (`api.py`
lines 246-294) on an in-memory event snapshot.  `label_filter = []`
models both `None` and an empty list (both falsy).  Python `list.sort`
is stable; `List.insertionSort` is the matching stable sort. -/
def get_events_in_range (fuel : Nat) (events : List Event) (s e : Date)
    (fl : List String) : Option (List Occurrence) :=
  (collectOccs fuel s e fl events).map (List.insertionSort occDateLE)

/-- `round(x, 2)`: rounding to two decimal places.  On floats Python
rounds half to even; `round` on `ℚ` rounds half up.  The two agree
except at exact half-cent ties, and no theorem below depends on the tie
behaviour. -/
def round2 (q : ℚ) : ℚ := (round (q * 100) : ℤ) / 100

/-- A `{'date': ..., 'balance': ...}` timeline entry
(`api.py` lines 326-329). -/
structure TimelinePoint where
  date : Date
  balance : ℚ
deriving DecidableEq, Repr

/-- Sum of the amounts applied on day `d`: the inner loop
`for event in events_by_date[date_str]: current_balance += event['amount']`
(lines 322-324) adds exactly the amounts of the occurrences whose date
equals `d` (the dict `events_by_date` groups occurrences by their date
string). -/
def byDateAmount (occs : List Occurrence) (d : Date) : ℚ :=
  ((occs.filter (fun o => o.date = d)).map (fun o => o.amount)).sum

/-- The day-by-day walk of `calculate_balance_timeline` (lines 318-331):
`while current_date <= end_dt:` apply the day's occurrences to the
running balance, append a point with the rounded balance, step one day.
Returns the timeline and the final (unrounded) running balance.  The
walk always terminates; the `Nat` argument is its iteration budget,
instantiated below with enough fuel for the whole window. -/
def walkTimeline (f : Date → ℚ) (e : Date) :
    Nat → Date → ℚ → List TimelinePoint × ℚ
  | 0, _, bal => ([], bal)
  | n + 1, c, bal =>
    if c ≤ e then
      let bal2 := bal + f c
      let rest := walkTimeline f e n (nextDay c) bal2
      (⟨c, round2 bal2⟩ :: rest.1, rest.2)
    else ([], bal)

/-- The dict returned by `calculate_balance_timeline` (lines 333-338). -/
structure TimelineResult where
  timeline : List TimelinePoint
  events : List Occurrence
  starting_balance : ℚ
  ending_balance : ℚ
deriving DecidableEq, Repr

/-- Number of leap years in `[1, y-1]`, used to count days before year
`y`. -/
def leapsBefore (y : Int) : Int :=
  Int.fdiv (y - 1) 4 - Int.fdiv (y - 1) 100 + Int.fdiv (y - 1) 400

/-- Days in year `y` strictly before month `m`. -/
def daysBeforeMonth (y : Int) (m : Nat) : Nat :=
  (((List.range (m - 1)).map (fun i => daysInMonth y (i + 1))).sum)

/-- The proleptic-Gregorian day number of a date: the value
`datetime.toordinal()` computes, the yardstick for `timedelta`
differences between dates. -/
def toOrdinal (d : Date) : Int :=
  365 * (d.year - 1) + leapsBefore d.year +
    (daysBeforeMonth d.year d.month : Int) + d.day

/-- `calculate_balance_timeline(start_date, end_date, starting_balance,
label_filter)` (`api.py` lines 296-338) on an in-memory event snapshot.
The walk gets exactly the fuel it needs for the window,
`(end - start).days + 1` iterations. -/
def calculate_balance_timeline (fuel : Nat) (events : List Event)
    (s e : Date) (startBal : ℚ) (fl : List String) : Option TimelineResult :=
  (get_events_in_range fuel events s e fl).map (fun occs =>
    let w := walkTimeline (byDateAmount occs) e
      ((toOrdinal e + 1 - toOrdinal s).toNat) s startBal
    { timeline := w.1, events := occs, starting_balance := startBal,
      ending_balance := round2 w.2 })

/-- The six pattern strings the advancement chain recognises. -/
def knownPattern (p : String) : Bool :=
  p == "daily" || p == "weekly" || p == "biweekly" || p == "monthly" ||
    p == "quarterly" || p == "yearly"

/-- All date fields of an event that can become occurrence dates denote
real calendar dates (Python guarantees this: `datetime` construction
rejects anything else). -/
def eventDatesValid (ev : Event) : Prop :=
  (∀ d, ev.event_date = some d → validDate d) ∧
  (∀ d, ev.recurrence_start = some d → validDate d)

/-- Test fixture: monthly event starting 2024-01-31 (spec §8's clamping
example). -/
def evC1 : Event :=
  { id := 1, description := "rent", amount := 100, event_date := none,
    is_recurring := true, recurrence_pattern := "monthly",
    recurrence_interval := 1, recurrence_start := some ⟨2024, 1, 31⟩,
    recurrence_end := none, comment := none, labels := [] }

/-- Test fixture: daily event with `recurrence_interval = 0`. -/
def evC2zero : Event :=
  { id := 2, description := "d", amount := 10, event_date := none,
    is_recurring := true, recurrence_pattern := "daily",
    recurrence_interval := 0, recurrence_start := some ⟨2025, 1, 1⟩,
    recurrence_end := none, comment := none, labels := [] }

/-- Test fixture: one-off event of -50 on 2025-01-02 (spec §8's
scenario). -/
def evOne : Event :=
  { id := 3, description := "x", amount := -50, event_date := some ⟨2025, 1, 2⟩,
    is_recurring := false, recurrence_pattern := "", recurrence_interval := 1,
    recurrence_start := none, recurrence_end := none, comment := none,
    labels := [] }

/-- Test fixture: biweekly event with `recurrence_interval = 5` starting
2025-01-01 (spec §8's interval-is-ignored example). -/
def evBiweek : Event :=
  { id := 4, description := "b", amount := 7, event_date := none,
    is_recurring := true, recurrence_pattern := "biweekly",
    recurrence_interval := 5, recurrence_start := some ⟨2025, 1, 1⟩,
    recurrence_end := none, comment := none, labels := [] }

/-- Test fixture: recurring event with an unrecognised pattern. -/
def evUnknown : Event :=
  { id := 5, description := "u", amount := 3, event_date := none,
    is_recurring := true, recurrence_pattern := "fortnightly",
    recurrence_interval := 1, recurrence_start := some ⟨2025, 1, 5⟩,
    recurrence_end := none, comment := none, labels := [] }

/-- Test fixture: daily event with a negative interval, whose expansion
loops forever in the Python code. -/
def evNeg : Event :=
  { id := 6, description := "n", amount := 2, event_date := none,
    is_recurring := true, recurrence_pattern := "daily",
    recurrence_interval := -1, recurrence_start := some ⟨2025, 1, 1⟩,
    recurrence_end := none, comment := none, labels := [] }

/-- Test fixture: one-off event carrying labels {"rent", "fixed"}
(spec §8's label-filter example). -/
def evLabeled : Event :=
  { id := 7, description := "rent", amount := -900,
    event_date := some ⟨2025, 1, 2⟩, is_recurring := false,
    recurrence_pattern := "", recurrence_interval := 1,
    recurrence_start := none, recurrence_end := none, comment := none,
    labels := ["rent", "fixed"] }

/-! ### Order lemmas for dates -/

theorem date_not_le {a b : Date} : ¬ a ≤ b ↔ b < a := by
  change ¬ dateLE a b ↔ dateLT b a
  unfold dateLE dateLT
  omega

theorem date_not_lt {a b : Date} : ¬ a < b ↔ b ≤ a := by
  change ¬ dateLT a b ↔ dateLE b a
  unfold dateLE dateLT
  omega

theorem date_le_trans {a b c : Date} (h1 : a ≤ b) (h2 : b ≤ c) : a ≤ c := by
  change dateLE a c
  change dateLE a b at h1
  change dateLE b c at h2
  unfold dateLE at h1 h2 ⊢
  omega

theorem date_le_iff_lt_or_eq {a b : Date} : a ≤ b ↔ (a < b ∨ a = b) := by
  rw [Date.ext_iff]
  change dateLE a b ↔ (dateLT a b ∨ _)
  unfold dateLE dateLT
  omega

theorem date_lt_of_lt_of_le {a b c : Date} (h1 : a < b) (h2 : b ≤ c) : a < c := by
  change dateLT a c
  change dateLT a b at h1
  change dateLE b c at h2
  unfold dateLE at h2
  unfold dateLT at h1 ⊢
  omega

theorem minDate_le_right (a b : Date) : minDate a b ≤ b := by
  unfold minDate
  split
  case isTrue h => exact h
  case isFalse h =>
    change dateLE b b
    unfold dateLE
    omega

theorem minDate_le_left (a b : Date) : minDate a b ≤ a := by
  unfold minDate
  split
  case isTrue h =>
    change dateLE a a
    unfold dateLE
    omega
  case isFalse h => exact (date_not_le.mp h |> date_le_iff_lt_or_eq.mpr ∘ Or.inl)

/-! ### Day-counting arithmetic -/

theorem isLeap_iff (y : Int) :
    isLeap y = true ↔ (y % 4 = 0 ∧ (y % 100 ≠ 0 ∨ y % 400 = 0)) := by
  unfold isLeap
  rw [Int.fmod_eq_emod _ (by norm_num), Int.fmod_eq_emod _ (by norm_num),
    Int.fmod_eq_emod _ (by norm_num)]
  simp

theorem leapsBefore_ediv (y : Int) :
    leapsBefore y = (y - 1) / 4 - (y - 1) / 100 + (y - 1) / 400 := by
  unfold leapsBefore
  rw [Int.fdiv_eq_ediv _ (by norm_num), Int.fdiv_eq_ediv _ (by norm_num),
    Int.fdiv_eq_ediv _ (by norm_num)]

theorem ediv4_succ (a : Int) : (a + 1) / 4 = a / 4 + (if (4:Int) ∣ (a + 1) then 1 else 0) := by
  split <;> omega

theorem ediv100_succ (a : Int) : (a + 1) / 100 = a / 100 + (if (100:Int) ∣ (a + 1) then 1 else 0) := by
  split <;> omega

theorem ediv400_succ (a : Int) : (a + 1) / 400 = a / 400 + (if (400:Int) ∣ (a + 1) then 1 else 0) := by
  split <;> omega

theorem leapsBefore_succ (y : Int) :
    leapsBefore (y + 1) = leapsBefore y + (if isLeap y then 1 else 0) := by
  have hiff := isLeap_iff y
  have h4 := ediv4_succ (y - 1)
  have h100 := ediv100_succ (y - 1)
  have h400 := ediv400_succ (y - 1)
  rw [show y - 1 + 1 = y from by ring] at h4 h100 h400
  rw [leapsBefore_ediv, leapsBefore_ediv, show y + 1 - 1 = y from by ring]
  cases hl : isLeap y with
  | true =>
    have hy := hiff.mp hl
    simp only [if_pos rfl, if_true]
    by_cases d4 : (4:Int) ∣ y <;> by_cases d100 : (100:Int) ∣ y <;>
      by_cases d400 : (400:Int) ∣ y <;>
        (first | rw [if_pos d4] at h4 | rw [if_neg d4] at h4) <;>
          (first | rw [if_pos d100] at h100 | rw [if_neg d100] at h100) <;>
            (first | rw [if_pos d400] at h400 | rw [if_neg d400] at h400) <;>
              omega
  | false =>
    have hy : ¬ (y % 4 = 0 ∧ (y % 100 ≠ 0 ∨ y % 400 = 0)) := by
      rw [← hiff]
      simp [hl]
    simp only [Bool.false_eq_true, if_false]
    by_cases d4 : (4:Int) ∣ y <;> by_cases d100 : (100:Int) ∣ y <;>
      by_cases d400 : (400:Int) ∣ y <;>
        (first | rw [if_pos d4] at h4 | rw [if_neg d4] at h4) <;>
          (first | rw [if_pos d100] at h100 | rw [if_neg d100] at h100) <;>
            (first | rw [if_pos d400] at h400 | rw [if_neg d400] at h400) <;>
              omega

theorem daysBeforeMonth_13 (y : Int) :
    daysBeforeMonth y 13 = 365 + (if isLeap y then 1 else 0) := by
  cases hl : isLeap y <;>
    (simp [daysBeforeMonth, daysInMonth, monthLengths, hl]; decide)

theorem daysBeforeMonth_succ (y : Int) (m : Nat) (hm : 1 ≤ m) :
    daysBeforeMonth y (m + 1) = daysBeforeMonth y m + daysInMonth y m := by
  obtain ⟨k, rfl⟩ : ∃ k, m = k + 1 := ⟨m - 1, by omega⟩
  unfold daysBeforeMonth
  simp [List.range_succ]

theorem daysBeforeMonth_mono (y : Int) {a b : Nat} (ha : 1 ≤ a) (hab : a ≤ b) :
    daysBeforeMonth y a ≤ daysBeforeMonth y b := by
  induction b, hab using Nat.le_induction with
  | base => omega
  | succ n hn ih =>
    have := daysBeforeMonth_succ y n (by omega)
    omega

theorem daysInMonth_ge (y : Int) {m : Nat} (h1 : 1 ≤ m) (h2 : m ≤ 12) :
    28 ≤ daysInMonth y m := by
  interval_cases m <;> (simp [daysInMonth, monthLengths]; try split) <;> norm_num

theorem daysInMonth_12 (y : Int) : daysInMonth y 12 = 31 := rfl

theorem daysInMonth_1 (y : Int) : daysInMonth y 1 = 31 := rfl

theorem daysBeforeMonth_1 (y : Int) : daysBeforeMonth y 1 = 0 := rfl

theorem toOrdinal_mk (y : Int) (m d : Nat) :
    toOrdinal ⟨y, m, d⟩ =
      365 * (y - 1) + leapsBefore y + (daysBeforeMonth y m : Int) + d := rfl

theorem validDate_mk (y : Int) (m d : Nat) :
    validDate ⟨y, m, d⟩ ↔ (1 ≤ m ∧ m ≤ 12 ∧ 1 ≤ d ∧ d ≤ daysInMonth y m) :=
  Iff.rfl

/-- The ordinal of the next calendar day is one more. -/
theorem toOrdinal_nextDay {d : Date} (h : validDate d) :
    toOrdinal (nextDay d) = toOrdinal d + 1 := by
  obtain ⟨h1, h2, h3, h4⟩ := h
  have hself : toOrdinal d = 365 * (d.year - 1) + leapsBefore d.year +
      (daysBeforeMonth d.year d.month : Int) + d.day := rfl
  unfold nextDay
  split
  case isTrue hd =>
    rw [toOrdinal_mk, hself]
    push_cast
    ring
  case isFalse hd =>
    split
    case isTrue hm =>
      have hds := daysBeforeMonth_succ d.year d.month h1
      rw [toOrdinal_mk, hself]
      push_cast [hds]
      omega
    case isFalse hm =>
      have hm12 : d.month = 12 := by omega
      have hday : d.day = 31 := by
        rw [hm12, daysInMonth_12] at h4
        rw [hm12, daysInMonth_12] at hd
        omega
      have h13 := daysBeforeMonth_13 d.year
      have h12 := daysBeforeMonth_succ d.year 12 (by omega)
      rw [daysInMonth_12] at h12
      norm_num at h12
      have hls := leapsBefore_succ d.year
      rw [toOrdinal_mk, hself, daysBeforeMonth_1, hm12, hday]
      cases hl : isLeap d.year <;> rw [hl] at h13 hls <;> simp at h13 hls <;>
        push_cast <;> omega

theorem validDate_nextDay {d : Date} (h : validDate d) : validDate (nextDay d) := by
  obtain ⟨h1, h2, h3, h4⟩ := h
  unfold nextDay
  split
  case isTrue hd => exact (validDate_mk _ _ _).mpr ⟨h1, h2, by omega, by omega⟩
  case isFalse hd =>
    split
    case isTrue hm =>
      refine (validDate_mk _ _ _).mpr ⟨by omega, by omega, by omega, ?_⟩
      have := daysInMonth_ge d.year (show 1 ≤ d.month + 1 by omega) (by omega)
      omega
    case isFalse hm =>
      refine (validDate_mk _ _ _).mpr ⟨by omega, by omega, by omega, ?_⟩
      rw [daysInMonth_1]
      omega

theorem validDate_prevDay {d : Date} (h : validDate d) : validDate (prevDay d) := by
  obtain ⟨h1, h2, h3, h4⟩ := h
  unfold prevDay
  split
  case isTrue hd => exact (validDate_mk _ _ _).mpr ⟨h1, h2, by omega, by omega⟩
  case isFalse hd =>
    split
    case isTrue hm =>
      refine (validDate_mk _ _ _).mpr ⟨by omega, by omega, ?_, by omega⟩
      have := daysInMonth_ge d.year (show 1 ≤ d.month - 1 by omega) (by omega)
      omega
    case isFalse hm =>
      refine (validDate_mk _ _ _).mpr ⟨by omega, by omega, by omega, ?_⟩
      rw [daysInMonth_12]

theorem validDate_iterate_nextDay (k : Nat) {d : Date} (h : validDate d) :
    validDate (nextDay^[k] d) := by
  induction k with
  | zero => simpa using h
  | succ n ih =>
    rw [Function.iterate_succ_apply']
    exact validDate_nextDay ih

theorem toOrdinal_iterate_nextDay (k : Nat) {d : Date} (h : validDate d) :
    toOrdinal (nextDay^[k] d) = toOrdinal d + k := by
  induction k with
  | zero => simp
  | succ n ih =>
    rw [Function.iterate_succ_apply', toOrdinal_nextDay (validDate_iterate_nextDay n h), ih]
    push_cast
    ring

theorem validDate_iterate_prevDay (k : Nat) {d : Date} (h : validDate d) :
    validDate (prevDay^[k] d) := by
  induction k with
  | zero => simpa using h
  | succ n ih =>
    rw [Function.iterate_succ_apply']
    exact validDate_prevDay ih

theorem validDate_addDays {d : Date} (h : validDate d) (n : Int) :
    validDate (addDays d n) := by
  unfold addDays
  split
  · exact validDate_iterate_nextDay _ h
  · exact validDate_iterate_prevDay _ h

theorem toOrdinal_addDays {d : Date} (h : validDate d) {n : Int} (hn : 0 ≤ n) :
    toOrdinal (addDays d n) = toOrdinal d + n := by
  unfold addDays
  rw [if_pos hn, toOrdinal_iterate_nextDay _ h]
  omega

theorem toOrdinal_year_succ (y : Int) :
    365 * ((y + 1) - 1) + leapsBefore (y + 1) =
      365 * (y - 1) + leapsBefore y + (daysBeforeMonth y 13 : Int) := by
  have h13 := daysBeforeMonth_13 y
  have hls := leapsBefore_succ y
  cases hl : isLeap y <;> rw [hl] at h13 hls <;> simp at h13 hls <;>
    push_cast [h13] <;> omega

theorem yearBase_mono {y z : Int} (h : y ≤ z) :
    365 * (y - 1) + leapsBefore y ≤ 365 * (z - 1) + leapsBefore z := by
  refine @Int.le_induction
    (fun z => 365 * (y - 1) + leapsBefore y ≤ 365 * (z - 1) + leapsBefore z)
    y (by omega) ?_ z h
  intro n hn ih
  have hs := toOrdinal_year_succ n
  have h13 := daysBeforeMonth_13 n
  cases hl : isLeap n <;> rw [hl] at h13 <;> simp at h13 <;>
    push_cast [h13] at hs <;> omega

theorem offset_le_dbm13 {d : Date} (h : validDate d) :
    daysBeforeMonth d.year d.month + d.day ≤ daysBeforeMonth d.year 13 := by
  obtain ⟨h1, h2, h3, h4⟩ := h
  have hsucc := daysBeforeMonth_succ d.year d.month h1
  have hmono := daysBeforeMonth_mono d.year (show 1 ≤ d.month + 1 by omega)
    (show d.month + 1 ≤ 13 by omega)
  omega

theorem toOrdinal_lt_of_lt {a b : Date} (ha : validDate a) (hb : validDate b)
    (h : a < b) : toOrdinal a < toOrdinal b := by
  have hoffa := offset_le_dbm13 ha
  have hOa : toOrdinal a = 365 * (a.year - 1) + leapsBefore a.year +
      (daysBeforeMonth a.year a.month : Int) + a.day := rfl
  have hOb : toOrdinal b = 365 * (b.year - 1) + leapsBefore b.year +
      (daysBeforeMonth b.year b.month : Int) + b.day := rfl
  change dateLT a b at h
  unfold dateLT at h
  obtain ⟨a1, a2, a3, a4⟩ := ha
  obtain ⟨b1, b2, b3, b4⟩ := hb
  rcases h with hy | ⟨hy, hm | ⟨hm, hd⟩⟩
  · have h2 := toOrdinal_year_succ a.year
    have h3 := yearBase_mono (show a.year + 1 ≤ b.year by omega)
    rw [hOa, hOb]
    omega
  · have hsucc := daysBeforeMonth_succ a.year a.month a1
    have hmono := daysBeforeMonth_mono a.year (show 1 ≤ a.month + 1 by omega)
      (show a.month + 1 ≤ b.month by omega)
    rw [hOa, hOb, ← hy]
    omega
  · rw [hOa, hOb, ← hy, ← hm]
    omega

theorem toOrdinal_le_of_le {a b : Date} (ha : validDate a) (hb : validDate b)
    (h : a ≤ b) : toOrdinal a ≤ toOrdinal b := by
  rcases date_le_iff_lt_or_eq.mp h with hlt | heq
  · exact le_of_lt (toOrdinal_lt_of_lt ha hb hlt)
  · rw [heq]

theorem toOrdinal_lt_iff {a b : Date} (ha : validDate a) (hb : validDate b) :
    toOrdinal a < toOrdinal b ↔ a < b := by
  constructor
  · intro h
    by_contra hc
    rw [date_not_lt] at hc
    have := toOrdinal_le_of_le hb ha hc
    omega
  · exact toOrdinal_lt_of_lt ha hb

theorem toOrdinal_le_iff {a b : Date} (ha : validDate a) (hb : validDate b) :
    toOrdinal a ≤ toOrdinal b ↔ a ≤ b := by
  constructor
  · intro h
    by_contra hc
    rw [date_not_le] at hc
    have := toOrdinal_lt_of_lt hb ha hc
    omega
  · exact toOrdinal_le_of_le ha hb

theorem date_eq_of_toOrdinal_eq {a b : Date} (ha : validDate a)
    (hb : validDate b) (h : toOrdinal a = toOrdinal b) : a = b := by
  rcases date_le_iff_lt_or_eq.mp ((toOrdinal_le_iff ha hb).mp (le_of_eq h)) with hlt | heq
  · have := toOrdinal_lt_of_lt ha hb hlt
    omega
  · exact heq

theorem addMonthsClamped_year (d : Date) (k : Int) :
    (addMonthsClamped d k).year =
      d.year + Int.fdiv ((d.month : Int) + k - 1) 12 := rfl

theorem addMonthsClamped_month (d : Date) (k : Int) :
    (addMonthsClamped d k).month =
      (Int.fmod ((d.month : Int) + k - 1) 12 + 1).toNat := rfl

theorem addMonthsClamped_day (d : Date) (k : Int) :
    (addMonthsClamped d k).day =
      min d.day (daysInMonth (addMonthsClamped d k).year (addMonthsClamped d k).month) := rfl

theorem fdm12 (a : Int) :
    12 * Int.fdiv a 12 + Int.fmod a 12 = a ∧
      0 ≤ Int.fmod a 12 ∧ Int.fmod a 12 < 12 := by
  rw [Int.fdiv_eq_ediv _ (by norm_num), Int.fmod_eq_emod _ (by norm_num)]
  omega

theorem addMonthsClamped_valid {d : Date} (h : validDate d) (k : Int) :
    validDate (addMonthsClamped d k) := by
  have hf := fdm12 ((d.month : Int) + k - 1)
  obtain ⟨h1, h2, h3, h4⟩ := h
  have hm1 : 1 ≤ (addMonthsClamped d k).month := by
    rw [addMonthsClamped_month]; omega
  have hm2 : (addMonthsClamped d k).month ≤ 12 := by
    rw [addMonthsClamped_month]; omega
  have hge := daysInMonth_ge (addMonthsClamped d k).year hm1 hm2
  refine ⟨hm1, hm2, ?_, ?_⟩
  · rw [addMonthsClamped_day]; omega
  · rw [addMonthsClamped_day]; omega

theorem addMonthsClamped_lt {d : Date} (h1 : 1 ≤ d.month) (h2 : d.month ≤ 12)
    {k : Int} (hk : 1 ≤ k) : d < addMonthsClamped d k := by
  have hf := fdm12 ((d.month : Int) + k - 1)
  change dateLT d (addMonthsClamped d k)
  unfold dateLT
  rw [addMonthsClamped_year, addMonthsClamped_month]
  omega

theorem addYearsClamped_valid {d : Date} (h : validDate d) (k : Int) :
    validDate (addYearsClamped d k) := by
  obtain ⟨h1, h2, h3, h4⟩ := h
  have hge := daysInMonth_ge (d.year + k) h1 h2
  exact (validDate_mk _ _ _).mpr ⟨h1, h2, by omega, by omega⟩

theorem addYearsClamped_lt (d : Date) {k : Int} (hk : 1 ≤ k) :
    d < addYearsClamped d k := by
  change dateLT d (addYearsClamped d k)
  unfold dateLT addYearsClamped
  simp only []
  omega

theorem date_lt_addDays {d : Date} (h : validDate d) {n : Int} (hn : 1 ≤ n) :
    d < addDays d n := by
  have hv2 := validDate_addDays h n
  have ho := toOrdinal_addDays h (show 0 ≤ n by omega)
  exact (toOrdinal_lt_iff h hv2).mp (by omega)

/-- For a recognised pattern, advancement never leaves the valid-date
domain (whatever the interval). -/
theorem nextOccur_valid {p : String} {i : Int} {c c2 : Date}
    (hv : validDate c) (h : nextOccur p i c = some c2) : validDate c2 := by
  unfold nextOccur at h
  split_ifs at h <;> simp only [Option.some.injEq] at h <;> subst h
  · exact validDate_addDays hv _
  · exact validDate_addDays hv _
  · exact validDate_addDays hv _
  · exact addMonthsClamped_valid hv _
  · exact addMonthsClamped_valid hv _
  · exact addYearsClamped_valid hv _

/-- For a recognised pattern and a positive interval, advancement
strictly increases the cursor. -/
theorem nextOccur_lt {p : String} {i : Int} {c c2 : Date}
    (hv : validDate c) (hi : 1 ≤ i) (h : nextOccur p i c = some c2) :
    c < c2 := by
  unfold nextOccur at h
  split_ifs at h <;> simp only [Option.some.injEq] at h <;> subst h
  · exact date_lt_addDays hv hi
  · exact date_lt_addDays hv (by omega)
  · exact date_lt_addDays hv (by norm_num)
  · exact addMonthsClamped_lt hv.1 hv.2.1 hi
  · exact addMonthsClamped_lt hv.1 hv.2.1 (by omega)
  · exact addYearsClamped_lt _ hi

/-! ### Loop lemmas -/

theorem ffwd_zero (p : String) (i : Int) (s recEnd c : Date) :
    ffwd p i s recEnd 0 c = none := rfl

theorem ffwd_succ (p : String) (i : Int) (s recEnd : Date) (n : Nat) (c : Date) :
    ffwd p i s recEnd (n + 1) c =
      if c < s ∧ c ≤ recEnd then
        match nextOccur p i c with
        | some c2 => ffwd p i s recEnd n c2
        | none => some c
      else some c := rfl

theorem emitOccs_zero (ev : Event) (p : String) (i : Int) (s minD c : Date) :
    emitOccs ev p i s minD 0 c = none := rfl

theorem emitOccs_succ (ev : Event) (p : String) (i : Int) (s minD : Date)
    (n : Nat) (c : Date) :
    emitOccs ev p i s minD (n + 1) c =
      if c ≤ minD then
        match nextOccur p i c with
        | some c2 =>
          (emitOccs ev p i s minD n c2).map
            (fun l => (if s ≤ c then [mkOcc ev c true] else []) ++ l)
        | none => some (if s ≤ c then [mkOcc ev c true] else [])
      else some [] := rfl

theorem ffwd_mono {p : String} {i : Int} {s recEnd : Date} :
    ∀ {n m : Nat} {c x : Date}, n ≤ m → ffwd p i s recEnd n c = some x →
      ffwd p i s recEnd m c = some x := by
  intro n
  induction n with
  | zero =>
    intro m c x _ h
    rw [ffwd_zero] at h
    exact absurd h (by simp)
  | succ k ih =>
    intro m c x hle h
    obtain ⟨m2, rfl⟩ : ∃ m2, m = m2 + 1 := ⟨m - 1, by omega⟩
    rw [ffwd_succ] at h
    rw [ffwd_succ]
    split at h
    case isTrue hc =>
      rw [if_pos hc]
      cases hno : nextOccur p i c with
      | some c3 =>
        rw [hno] at h
        simp only []
        exact ih (by omega) h
      | none =>
        rw [hno] at h
        exact h
    case isFalse hc =>
      rw [if_neg hc]
      exact h

theorem emitOccs_mono {ev : Event} {p : String} {i : Int} {s minD : Date} :
    ∀ {n m : Nat} {c : Date} {l : List Occurrence}, n ≤ m →
      emitOccs ev p i s minD n c = some l →
      emitOccs ev p i s minD m c = some l := by
  intro n
  induction n with
  | zero =>
    intro m c l _ h
    rw [emitOccs_zero] at h
    exact absurd h (by simp)
  | succ k ih =>
    intro m c l hle h
    obtain ⟨m2, rfl⟩ : ∃ m2, m = m2 + 1 := ⟨m - 1, by omega⟩
    rw [emitOccs_succ] at h
    rw [emitOccs_succ]
    split at h
    case isTrue hc =>
      rw [if_pos hc]
      cases hno : nextOccur p i c with
      | some c3 =>
        rw [hno] at h
        simp only [Option.map_eq_some'] at h
        obtain ⟨l2, hl2, rfl⟩ := h
        simp only [Option.map_eq_some']
        exact ⟨l2, ih (by omega) hl2, rfl⟩
      | none =>
        rw [hno] at h
        exact h
    case isFalse hc =>
      rw [if_neg hc]
      exact h

theorem ffwd_valid {p : String} {i : Int} {s recEnd : Date} :
    ∀ {n : Nat} {c x : Date}, validDate c → ffwd p i s recEnd n c = some x →
      validDate x := by
  intro n
  induction n with
  | zero =>
    intro c x _ h
    rw [ffwd_zero] at h
    exact absurd h (by simp)
  | succ k ih =>
    intro c x hc h
    rw [ffwd_succ] at h
    split at h
    case isTrue hcond =>
      cases hno : nextOccur p i c with
      | some c2 =>
        rw [hno] at h
        exact ih (nextOccur_valid hc hno) h
      | none =>
        rw [hno] at h
        cases h
        exact hc
    case isFalse hcond =>
      cases h
      exact hc

/-- With a positive interval and valid dates, the fast-forward loop
finishes within `(toOrdinal s - toOrdinal c).toNat + 1` iterations. -/
theorem ffwd_term {p : String} {i : Int} {s recEnd : Date}
    (hs : validDate s) (hi : 1 ≤ i) :
    ∀ (k : Nat) {c : Date}, validDate c →
      (toOrdinal s - toOrdinal c).toNat ≤ k →
      ∃ x, ffwd p i s recEnd (k + 1) c = some x ∧ validDate x := by
  intro k
  induction k with
  | zero =>
    intro c hc hm
    have hns : ¬ c < s := by
      rw [date_not_lt]
      exact (toOrdinal_le_iff hs hc).mp (by omega)
    refine ⟨c, ?_, hc⟩
    rw [ffwd_succ, if_neg (by tauto)]
  | succ k ih =>
    intro c hc hm
    by_cases hcond : c < s ∧ c ≤ recEnd
    · cases hno : nextOccur p i c with
      | none =>
        refine ⟨c, ?_, hc⟩
        rw [ffwd_succ, if_pos hcond, hno]
      | some c2 =>
        have hv2 := nextOccur_valid hc hno
        have hordlt := toOrdinal_lt_of_lt hc hv2 (nextOccur_lt hc hi hno)
        have hcs : toOrdinal c < toOrdinal s := toOrdinal_lt_of_lt hc hs hcond.1
        obtain ⟨x, hx, hvx⟩ := ih hv2 (by omega)
        refine ⟨x, ?_, hvx⟩
        rw [ffwd_succ, if_pos hcond, hno]
        exact hx
    · refine ⟨c, ?_, hc⟩
      rw [ffwd_succ, if_neg hcond]

/-- With a positive interval and valid dates, the emission loop finishes
within `(toOrdinal minD + 1 - toOrdinal c).toNat + 1` iterations. -/
theorem emitOccs_term {ev : Event} {p : String} {i : Int} {s minD : Date}
    (hminD : validDate minD) (hi : 1 ≤ i) :
    ∀ (k : Nat) {c : Date}, validDate c →
      (toOrdinal minD + 1 - toOrdinal c).toNat ≤ k →
      ∃ l, emitOccs ev p i s minD (k + 1) c = some l := by
  intro k
  induction k with
  | zero =>
    intro c hc hm
    have hns : ¬ c ≤ minD := by
      rw [date_not_le]
      exact (toOrdinal_lt_iff hminD hc).mp (by omega)
    refine ⟨[], ?_⟩
    rw [emitOccs_succ, if_neg hns]
  | succ k ih =>
    intro c hc hm
    by_cases hcond : c ≤ minD
    · cases hno : nextOccur p i c with
      | none =>
        refine ⟨if s ≤ c then [mkOcc ev c true] else [], ?_⟩
        rw [emitOccs_succ, if_pos hcond, hno]
      | some c2 =>
        have hv2 := nextOccur_valid hc hno
        have hordlt := toOrdinal_lt_of_lt hc hv2 (nextOccur_lt hc hi hno)
        have hcm : toOrdinal c ≤ toOrdinal minD := toOrdinal_le_of_le hc hminD hcond
        obtain ⟨l, hl⟩ := ih hv2 (by omega)
        refine ⟨(if s ≤ c then [mkOcc ev c true] else []) ++ l, ?_⟩
        rw [emitOccs_succ, if_pos hcond, hno]
        simp only [Option.map_eq_some']
        exact ⟨l, hl, rfl⟩
    · refine ⟨[], ?_⟩
      rw [emitOccs_succ, if_neg hcond]

/-- Every occurrence the emission loop produces is dated inside
`[start_date, min(rec_end, end_date)]`. -/
theorem emitOccs_dates {ev : Event} {p : String} {i : Int} {s minD : Date} :
    ∀ {n : Nat} {c : Date} {l : List Occurrence},
      emitOccs ev p i s minD n c = some l →
      ∀ o ∈ l, s ≤ o.date ∧ o.date ≤ minD := by
  intro n
  induction n with
  | zero =>
    intro c l h
    rw [emitOccs_zero] at h
    exact absurd h (by simp)
  | succ k ih =>
    intro c l h
    rw [emitOccs_succ] at h
    split at h
    case isTrue hcond =>
      cases hno : nextOccur p i c with
      | some c2 =>
        rw [hno] at h
        simp only [Option.map_eq_some'] at h
        obtain ⟨l2, hl2, rfl⟩ := h
        intro o ho
        rcases List.mem_append.mp ho with hacc | hrest
        · split at hacc
          case isTrue hsc =>
            rcases List.mem_singleton.mp hacc with rfl
            exact ⟨hsc, hcond⟩
          case isFalse hsc => exact absurd hacc (List.not_mem_nil o)
        · exact ih hl2 o hrest
      | none =>
        rw [hno] at h
        cases h
        intro o ho
        split at ho
        case isTrue hsc =>
          rcases List.mem_singleton.mp ho with rfl
          exact ⟨hsc, hcond⟩
        case isFalse hsc => exact absurd ho (List.not_mem_nil o)
    case isFalse hcond =>
      cases h
      intro o ho
      exact absurd ho (List.not_mem_nil o)

/-- Given a valid cursor, every emitted occurrence has a valid date. -/
theorem emitOccs_dates_valid {ev : Event} {p : String} {i : Int}
    {s minD : Date} :
    ∀ {n : Nat} {c : Date} {l : List Occurrence}, validDate c →
      emitOccs ev p i s minD n c = some l →
      ∀ o ∈ l, validDate o.date := by
  intro n
  induction n with
  | zero =>
    intro c l _ h
    rw [emitOccs_zero] at h
    exact absurd h (by simp)
  | succ k ih =>
    intro c l hc h
    rw [emitOccs_succ] at h
    split at h
    case isTrue hcond =>
      cases hno : nextOccur p i c with
      | some c2 =>
        rw [hno] at h
        simp only [Option.map_eq_some'] at h
        obtain ⟨l2, hl2, rfl⟩ := h
        intro o ho
        rcases List.mem_append.mp ho with hacc | hrest
        · split at hacc
          case isTrue hsc =>
            rcases List.mem_singleton.mp hacc with rfl
            exact hc
          case isFalse hsc => exact absurd hacc (List.not_mem_nil o)
        · exact ih (nextOccur_valid hc hno) hl2 o hrest
      | none =>
        rw [hno] at h
        cases h
        intro o ho
        split at ho
        case isTrue hsc =>
          rcases List.mem_singleton.mp ho with rfl
          exact hc
        case isFalse hsc => exact absurd ho (List.not_mem_nil o)
    case isFalse hcond =>
      cases h
      intro o ho
      exact absurd ho (List.not_mem_nil o)

theorem expand_eq (fuel : Nat) (ev : Event) (s e : Date) :
    expand_recurring_event fuel ev s e =
      match ev.recurrence_start with
      | none => none
      | some rs =>
        match ffwd ev.recurrence_pattern (effInterval ev) s
            (ev.recurrence_end.getD e) fuel rs with
        | none => none
        | some c =>
          emitOccs ev ev.recurrence_pattern (effInterval ev) s
            (minDate (ev.recurrence_end.getD e) e) fuel c := rfl

/-- Every occurrence produced by `expand_recurring_event` is dated inside
the query window `[start_date, end_date]`. -/
theorem expand_dates {fuel : Nat} {ev : Event} {s e : Date}
    {l : List Occurrence} (h : expand_recurring_event fuel ev s e = some l) :
    ∀ o ∈ l, s ≤ o.date ∧ o.date ≤ e := by
  rw [expand_eq] at h
  split at h
  next => exact absurd h (by simp)
  next rs hrs =>
    split at h
    next => exact absurd h (by simp)
    next c hff =>
      intro o ho
      have hb := emitOccs_dates h o ho
      exact ⟨hb.1, date_le_trans hb.2 (minDate_le_right _ _)⟩

theorem collectOccs_nil (fuel : Nat) (s e : Date) (fl : List String) :
    collectOccs fuel s e fl [] = some [] := rfl

theorem collectOccs_cons (fuel : Nat) (s e : Date) (fl : List String)
    (ev : Event) (rest : List Event) :
    collectOccs fuel s e fl (ev :: rest) =
      if !fl.isEmpty && !(fl.any (fun l => ev.labels.contains l)) then
        collectOccs fuel s e fl rest
      else if ev.is_recurring then
        match expand_recurring_event fuel ev s e with
        | none => none
        | some occs => (collectOccs fuel s e fl rest).map (fun l => occs ++ l)
      else
        match ev.event_date with
        | some d =>
          if s ≤ d ∧ d ≤ e then
            (collectOccs fuel s e fl rest).map (fun l => mkOcc ev d false :: l)
          else collectOccs fuel s e fl rest
        | none => collectOccs fuel s e fl rest := rfl

theorem collectOccs_dates {fuel : Nat} {s e : Date} {fl : List String} :
    ∀ {events : List Event} {l : List Occurrence},
      collectOccs fuel s e fl events = some l →
      ∀ o ∈ l, s ≤ o.date ∧ o.date ≤ e := by
  intro events
  induction events with
  | nil =>
    intro l h
    rw [collectOccs_nil] at h
    cases h
    intro o ho
    exact absurd ho (List.not_mem_nil o)
  | cons ev rest ih =>
    intro l h
    rw [collectOccs_cons] at h
    split at h
    next hskip => exact ih h
    next hskip =>
      split at h
      next hrec =>
        split at h
        next hex => exact absurd h (by simp)
        next occs hex =>
          simp only [Option.map_eq_some'] at h
          obtain ⟨l2, hl2, rfl⟩ := h
          intro o ho
          rcases List.mem_append.mp ho with hin | hin
          · exact expand_dates hex o hin
          · exact ih hl2 o hin
      next hrec =>
        split at h
        next d hed =>
          split at h
          next hwin =>
            simp only [Option.map_eq_some'] at h
            obtain ⟨l2, hl2, rfl⟩ := h
            intro o ho
            rcases List.mem_cons.mp ho with rfl | hin
            · exact hwin
            · exact ih hl2 o hin
          next hwin => exact ih h
        next hed => exact ih h

/-- C5 core: every occurrence returned by `get_events_in_range` is dated
inside the query window. -/
theorem get_events_in_range_dates {fuel : Nat} {events : List Event}
    {s e : Date} {fl : List String} {occs : List Occurrence}
    (h : get_events_in_range fuel events s e fl = some occs) :
    ∀ o ∈ occs, s ≤ o.date ∧ o.date ≤ e := by
  unfold get_events_in_range at h
  simp only [Option.map_eq_some'] at h
  obtain ⟨l0, hl0, rfl⟩ := h
  intro o ho
  exact collectOccs_dates hl0 o ((List.perm_insertionSort occDateLE l0).mem_iff.mp ho)

theorem dateLT_mk_iff {y1 : Int} {m1 d1 : Nat} {b : Date} :
    (Date.mk y1 m1 d1 < b) ↔
      (y1 < b.year ∨ (y1 = b.year ∧
        (m1 < b.month ∨ (m1 = b.month ∧ d1 < b.day)))) := Iff.rfl

theorem prevDay_lt (d : Date) : prevDay d < d := by
  unfold prevDay
  split
  case isTrue h =>
    rw [dateLT_mk_iff]
    exact Or.inr ⟨rfl, Or.inr ⟨rfl, by omega⟩⟩
  case isFalse h =>
    split
    case isTrue h2 =>
      rw [dateLT_mk_iff]
      exact Or.inr ⟨rfl, Or.inl (by omega)⟩
    case isFalse h2 =>
      rw [dateLT_mk_iff]
      exact Or.inl (by omega)

theorem nextOccur_unknown {p : String} (h : knownPattern p = false)
    (i : Int) (c : Date) : nextOccur p i c = none := by
  unfold knownPattern at h
  simp only [Bool.or_eq_false_iff, beq_eq_false_iff_ne, ne_eq] at h
  unfold nextOccur
  rw [if_neg h.1.1.1.1.1, if_neg h.1.1.1.1.2, if_neg h.1.1.1.2,
    if_neg h.1.1.2, if_neg h.1.2, if_neg h.2]

theorem walkTimeline_zero (f : Date → ℚ) (e c : Date) (bal : ℚ) :
    walkTimeline f e 0 c bal = ([], bal) := rfl

theorem walkTimeline_succ (f : Date → ℚ) (e : Date) (n : Nat) (c : Date)
    (bal : ℚ) :
    walkTimeline f e (n + 1) c bal =
      if c ≤ e then
        ((⟨c, round2 (bal + f c)⟩ : TimelinePoint) ::
            (walkTimeline f e n (nextDay c) (bal + f c)).1,
          (walkTimeline f e n (nextDay c) (bal + f c)).2)
      else ([], bal) := rfl

/-- C1 counterexample: the claimed occurrence dates
2024-01-31, 2024-02-29, 2024-03-31, 2024-04-30 are NOT what
`expand_recurring_event` produces for a monthly event starting
2024-01-31 over [2024-01-01, 2024-04-30]: the code clamps against the
previously clamped day, so March drifts to the 29th. -/
theorem C1_counterexample :
    (expand_recurring_event 20 evC1 ⟨2024, 1, 1⟩ ⟨2024, 4, 30⟩).map
        (fun l => l.map (fun o => o.date)) ≠
      some [⟨2024, 1, 31⟩, ⟨2024, 2, 29⟩, ⟨2024, 3, 31⟩, ⟨2024, 4, 30⟩] := by
  decide

/-- C1 amended: the monthly advancement clamps the day to
`min(previous occurrence's day, days-in-target-month)` — the day of the
previously clamped cursor, not of the recurrence start — so the
expansion of a monthly event starting 2024-01-31 over
[2024-01-01, 2024-04-30] is 01-31, 02-29, 03-29, 04-29, and the day
stays 29 for the rest of the year. -/
theorem C1_amended :
    expand_recurring_event 20 evC1 ⟨2024, 1, 1⟩ ⟨2024, 4, 30⟩ =
      some [mkOcc evC1 ⟨2024, 1, 31⟩ true, mkOcc evC1 ⟨2024, 2, 29⟩ true,
        mkOcc evC1 ⟨2024, 3, 29⟩ true, mkOcc evC1 ⟨2024, 4, 29⟩ true] ∧
    (expand_recurring_event 20 evC1 ⟨2024, 1, 1⟩ ⟨2024, 12, 31⟩).map
        (fun l => l.map (fun o => o.date)) =
      some [⟨2024, 1, 31⟩, ⟨2024, 2, 29⟩, ⟨2024, 3, 29⟩, ⟨2024, 4, 29⟩,
        ⟨2024, 5, 29⟩, ⟨2024, 6, 29⟩, ⟨2024, 7, 29⟩, ⟨2024, 8, 29⟩,
        ⟨2024, 9, 29⟩, ⟨2024, 10, 29⟩, ⟨2024, 11, 29⟩, ⟨2024, 12, 29⟩] := by
  constructor <;> decide

/-- C2 counterexample: an event with `recurrence_interval = 0` is not
rejected anywhere: the full timeline computation succeeds, and the
occurrences show the interval was silently treated as 1 (daily
occurrences on four consecutive days). -/
theorem C2_counterexample :
    (calculate_balance_timeline 6 [evC2zero] ⟨2025, 1, 1⟩ ⟨2025, 1, 4⟩ 100
        []).isSome = true ∧
    (get_events_in_range 6 [evC2zero] ⟨2025, 1, 1⟩ ⟨2025, 1, 4⟩ []).map
        (fun l => l.map (fun o => o.date)) =
      some [⟨2025, 1, 1⟩, ⟨2025, 1, 2⟩, ⟨2025, 1, 3⟩, ⟨2025, 1, 4⟩] := by
  constructor <;> decide

/-- C2 amended: there is no validation boundary; inside the expander,
`recurrence_interval or 1` silently replaces an interval of 0 by 1
(`effInterval`), and the expansion runs exactly as if the stored
interval were 1.  Negative intervals pass through unchanged. -/
theorem C2_amended (fuel : Nat) (ev : Event) (s e : Date)
    (h : ev.recurrence_interval = 0) :
    effInterval ev = 1 ∧
    expand_recurring_event fuel ev s e =
      match ev.recurrence_start with
      | none => none
      | some rs =>
        match ffwd ev.recurrence_pattern 1 s (ev.recurrence_end.getD e)
            fuel rs with
        | none => none
        | some c =>
          emitOccs ev ev.recurrence_pattern 1 s
            (minDate (ev.recurrence_end.getD e) e) fuel c := by
  have he : effInterval ev = 1 := by
    unfold effInterval
    rw [if_pos h]
  refine ⟨he, ?_⟩
  rw [expand_eq, he]

/-- C3 counterexample: with `windowStart > windowEnd` the computation is
not rejected; it returns a normal (successful) result whose timeline is
empty. -/
theorem C3_counterexample :
    (calculate_balance_timeline 5 [evOne] ⟨2025, 1, 5⟩ ⟨2025, 1, 2⟩ 100 []).map
        (fun r => (r.timeline, r.events)) = some ([], []) ∧
    (calculate_balance_timeline 5 [evOne] ⟨2025, 1, 5⟩ ⟨2025, 1, 2⟩ 100
        []).isSome = true := by
  constructor <;> decide

/-- C3 amended: an inverted window is not rejected: whenever
`calculate_balance_timeline` returns at all on a window with
`windowEnd < windowStart`, the result is a normal value with an empty
timeline, an empty occurrence list, and ending balance
`round2(starting_balance)`. -/
theorem C3_amended {fuel : Nat} {events : List Event} {s e : Date}
    {bal : ℚ} {fl : List String} {r : TimelineResult} (hlt : e < s)
    (h : calculate_balance_timeline fuel events s e bal fl = some r) :
    r.timeline = [] ∧ r.events = [] ∧ r.ending_balance = round2 bal := by
  unfold calculate_balance_timeline at h
  simp only [Option.map_eq_some'] at h
  obtain ⟨occs, hocc, rfl⟩ := h
  have hempty : occs = [] := by
    rcases hoccs : occs with _ | ⟨o, rest⟩
    · rfl
    · exfalso
      have hb := get_events_in_range_dates hocc o (by rw [hoccs]; simp)
      exact absurd (date_le_trans hb.1 hb.2) (date_not_le.mpr hlt)
  subst hempty
  have hnse : ¬ s ≤ e := date_not_le.mpr hlt
  have hwalk : walkTimeline (byDateAmount []) e
      ((toOrdinal e + 1 - toOrdinal s).toNat) s bal = ([], bal) := by
    cases hn : (toOrdinal e + 1 - toOrdinal s).toNat with
    | zero => rfl
    | succ k => rw [walkTimeline_succ, if_neg hnse]
  rw [hwalk]
  exact ⟨rfl, rfl, rfl⟩

/-- C3 amended, witness: concrete inverted window. -/
theorem C3_amended_witness :
    ∃ r, calculate_balance_timeline 5 [evOne] ⟨2025, 1, 5⟩ ⟨2025, 1, 2⟩ 100 []
        = some r ∧
      r.timeline = [] ∧ r.events = [] ∧ r.ending_balance = round2 100 := by
  have hsome : (calculate_balance_timeline 5 [evOne] ⟨2025, 1, 5⟩
      ⟨2025, 1, 2⟩ 100 []).isSome = true := by decide
  obtain ⟨r, hr⟩ := Option.isSome_iff_exists.mp hsome
  exact ⟨r, hr, C3_amended (by decide) hr⟩

/-- C5: every occurrence returned by a query — produced by recurring
expansion (whether or not `recurrence_end` is set, hence in particular
when it is absent and the bound is the window end) or by a one-off
event — is dated inside `[windowStart, windowEnd]`, both ends
inclusive. -/
theorem C5_occurrences_within_window {fuel : Nat} {events : List Event}
    {s e : Date} {fl : List String} {occs : List Occurrence}
    (h : get_events_in_range fuel events s e fl = some occs) :
    ∀ o ∈ occs, s ≤ o.date ∧ o.date ≤ e :=
  get_events_in_range_dates h

/-- C5 witness: concrete query (a recurring event without
`recurrence_end` together with a one-off event). -/
theorem C5_witness :
    ∃ occs, get_events_in_range 8 [evC2zero, evOne] ⟨2025, 1, 1⟩ ⟨2025, 1, 4⟩ []
        = some occs ∧
      ∀ o ∈ occs, (⟨2025, 1, 1⟩ : Date) ≤ o.date ∧ o.date ≤ ⟨2025, 1, 4⟩ := by
  have hsome : (get_events_in_range 8 [evC2zero, evOne] ⟨2025, 1, 1⟩
      ⟨2025, 1, 4⟩ []).isSome = true := by decide
  obtain ⟨occs, hr⟩ := Option.isSome_iff_exists.mp hsome
  exact ⟨occs, hr, C5_occurrences_within_window hr⟩

/-- C2 amended, witness: the interval-0 fixture. -/
theorem C2_amended_witness :
    effInterval evC2zero = 1 ∧
    expand_recurring_event 6 evC2zero ⟨2025, 1, 1⟩ ⟨2025, 1, 4⟩ =
      match evC2zero.recurrence_start with
      | none => none
      | some rs =>
        match ffwd evC2zero.recurrence_pattern 1 ⟨2025, 1, 1⟩
            (evC2zero.recurrence_end.getD ⟨2025, 1, 4⟩) 6 rs with
        | none => none
        | some c =>
          emitOccs evC2zero evC2zero.recurrence_pattern 1 ⟨2025, 1, 1⟩
            (minDate (evC2zero.recurrence_end.getD ⟨2025, 1, 4⟩) ⟨2025, 1, 4⟩)
            6 c :=
  C2_amended 6 evC2zero ⟨2025, 1, 1⟩ ⟨2025, 1, 4⟩ rfl

/-- C9: for an unrecognised pattern the expansion returns normally
(raises nothing) and the cursor never advances past `recurrence_start`:
the result is exactly one occurrence at `recurrence_start` when that
date lies in `[start_date, min(rec_end, end_date)]` and is at least
`start_date`, and no occurrence otherwise. -/
theorem C9_unknown_pattern_halts {fuel : Nat} {ev : Event} {s e rs : Date}
    (hfuel : 1 ≤ fuel)
    (hp : knownPattern ev.recurrence_pattern = false)
    (hrs : ev.recurrence_start = some rs) :
    expand_recurring_event fuel ev s e =
      some (if s ≤ rs ∧ rs ≤ minDate (ev.recurrence_end.getD e) e
        then [mkOcc ev rs true] else []) := by
  obtain ⟨n, rfl⟩ : ∃ n, fuel = n + 1 := ⟨fuel - 1, by omega⟩
  have hno := nextOccur_unknown hp (effInterval ev) rs
  have hffwd : ffwd ev.recurrence_pattern (effInterval ev) s
      (ev.recurrence_end.getD e) (n + 1) rs = some rs := by
    rw [ffwd_succ]
    split
    · rw [hno]
    · rfl
  rw [expand_eq]
  simp only [hrs, hffwd]
  rw [emitOccs_succ]
  by_cases hcond : rs ≤ minDate (ev.recurrence_end.getD e) e
  · rw [if_pos hcond, hno]
    by_cases hs : s ≤ rs
    · rw [if_pos hs, if_pos ⟨hs, hcond⟩]
    · rw [if_neg hs, if_neg (by tauto)]
  · rw [if_neg hcond, if_neg (by tauto)]

/-- C9 witness: the unknown-pattern fixture, whose recurrence start lies
in the window: exactly one occurrence, and the computation succeeds. -/
theorem C9_witness :
    expand_recurring_event 3 evUnknown ⟨2025, 1, 1⟩ ⟨2025, 1, 31⟩ =
      some (if (⟨2025, 1, 1⟩ : Date) ≤ ⟨2025, 1, 5⟩ ∧
          (⟨2025, 1, 5⟩ : Date) ≤
            minDate (evUnknown.recurrence_end.getD ⟨2025, 1, 31⟩) ⟨2025, 1, 31⟩
        then [mkOcc evUnknown ⟨2025, 1, 5⟩ true] else []) :=
  C9_unknown_pattern_halts (by omega) (by decide) rfl

theorem ffwd_exit {p : String} {i : Int} {s recEnd : Date}
    (hstep : ∀ c, (nextOccur p i c).isSome = true) :
    ∀ {n : Nat} {c x : Date}, ffwd p i s recEnd n c = some x →
      ¬ (x < s ∧ x ≤ recEnd) := by
  intro n
  induction n with
  | zero =>
    intro c x h
    rw [ffwd_zero] at h
    exact absurd h (by simp)
  | succ k ih =>
    intro c x h
    rw [ffwd_succ] at h
    split at h
    case isTrue hc =>
      cases hno : nextOccur p i c with
      | some c2 =>
        rw [hno] at h
        exact ih h
      | none =>
        have hs := hstep c
        rw [hno] at hs
        exact absurd hs (by simp)
    case isFalse hc =>
      cases h
      exact hc

theorem biweekly_step (i : Int) (c : Date) :
    nextOccur "biweekly" i c = some (addDays c 14) := rfl

theorem emitOccs_chain_biweekly {ev : Event} {i : Int} {s minD : Date} :
    ∀ {n : Nat} {c : Date} {l : List Occurrence}, validDate c → s ≤ c →
      emitOccs ev "biweekly" i s minD n c = some l →
      List.Chain' (fun a b => b.date = addDays a.date 14) l ∧
      (∀ o, l.head? = some o → o.date = c) := by
  intro n
  induction n with
  | zero =>
    intro c l _ _ h
    rw [emitOccs_zero] at h
    exact absurd h (by simp)
  | succ k ih =>
    intro c l hv hsc h
    rw [emitOccs_succ] at h
    split at h
    case isTrue hcm =>
      simp only [biweekly_step, if_pos hsc, Option.map_eq_some'] at h
      obtain ⟨l2, hl2, rfl⟩ := h
      have hv2 : validDate (addDays c 14) := validDate_addDays hv 14
      have hlt : c < addDays c 14 := date_lt_addDays hv (by norm_num)
      have hs2 : s ≤ addDays c 14 :=
        date_le_trans hsc (date_le_iff_lt_or_eq.mpr (Or.inl hlt))
      obtain ⟨hch, hhd⟩ := ih hv2 hs2 hl2
      rw [List.singleton_append]
      constructor
      · rw [List.chain'_cons']
        refine ⟨?_, hch⟩
        intro b hb
        rw [Option.mem_def] at hb
        exact hhd b hb
      · intro o ho
        simp only [List.head?_cons, Option.some.injEq] at ho
        rw [← ho]
        rfl
    case isFalse hcm =>
      cases h
      refine ⟨List.chain'_nil, ?_⟩
      intro o ho
      simp at ho

/-- C7: the biweekly advancement adds exactly 14 days whatever the
interval, and consequently consecutive occurrences of any biweekly
event are exactly 14 days apart. -/
theorem C7_biweekly_fixed_step :
    (∀ (i : Int) (c : Date), nextOccur "biweekly" i c = some (addDays c 14)) ∧
    (∀ (fuel : Nat) (ev : Event) (s e rs : Date) (l : List Occurrence),
      ev.recurrence_pattern = "biweekly" → ev.recurrence_start = some rs →
      validDate rs → expand_recurring_event fuel ev s e = some l →
      List.Chain' (fun a b => b.date = addDays a.date 14) l) := by
  refine ⟨biweekly_step, ?_⟩
  intro fuel ev s e rs l hpat hrs hvrs h
  rw [expand_eq] at h
  split at h
  next heq =>
    rw [hrs] at heq
    exact absurd heq (by simp)
  next rs2 heq =>
    rw [hrs] at heq
    injection heq with heq2
    subst heq2
    split at h
    next => exact absurd h (by simp)
    next c hff =>
      rw [hpat] at hff h
      have hvc : validDate c := ffwd_valid hvrs hff
      have hexit := ffwd_exit
        (fun c0 => by rw [biweekly_step (effInterval ev) c0]; rfl) hff
      rcases Decidable.em (s ≤ c) with hsc | hsc
      · exact (emitOccs_chain_biweekly hvc hsc h).1
      · have hcs : c < s := date_not_le.mp hsc
        have hrc : ¬ c ≤ ev.recurrence_end.getD e := fun hle => hexit ⟨hcs, hle⟩
        have hmin : ¬ c ≤ minDate (ev.recurrence_end.getD e) e := fun hle =>
          hrc (date_le_trans hle (minDate_le_left _ _))
        cases fuel with
        | zero =>
          rw [emitOccs_zero] at h
          exact absurd h (by simp)
        | succ k =>
          rw [emitOccs_succ, if_neg hmin] at h
          cases h
          exact List.chain'_nil

/-- C7 witness: a biweekly event with interval 5 still steps 14 days. -/
theorem C7_witness :
    expand_recurring_event 6 evBiweek ⟨2025, 1, 1⟩ ⟨2025, 2, 15⟩ =
      some [mkOcc evBiweek ⟨2025, 1, 1⟩ true, mkOcc evBiweek ⟨2025, 1, 15⟩ true,
        mkOcc evBiweek ⟨2025, 1, 29⟩ true, mkOcc evBiweek ⟨2025, 2, 12⟩ true] ∧
    List.Chain' (fun a b => b.date = addDays a.date 14)
      [mkOcc evBiweek ⟨2025, 1, 1⟩ true, mkOcc evBiweek ⟨2025, 1, 15⟩ true,
        mkOcc evBiweek ⟨2025, 1, 29⟩ true, mkOcc evBiweek ⟨2025, 2, 12⟩ true] := by
  have hexp : expand_recurring_event 6 evBiweek ⟨2025, 1, 1⟩ ⟨2025, 2, 15⟩ =
      some [mkOcc evBiweek ⟨2025, 1, 1⟩ true, mkOcc evBiweek ⟨2025, 1, 15⟩ true,
        mkOcc evBiweek ⟨2025, 1, 29⟩ true, mkOcc evBiweek ⟨2025, 2, 12⟩ true] := by
    decide
  exact ⟨hexp, C7_biweekly_fixed_step.2 6 evBiweek ⟨2025, 1, 1⟩ ⟨2025, 2, 15⟩
    ⟨2025, 1, 1⟩ _ rfl rfl (by decide) hexp⟩

theorem collectOccs_filter (fuel : Nat) (s e : Date) (fl : List String) :
    ∀ events : List Event,
      collectOccs fuel s e fl events =
        collectOccs fuel s e []
          (events.filter
            (fun ev => fl.isEmpty || fl.any (fun lb => ev.labels.contains lb))) := by
  intro events
  induction events with
  | nil => rfl
  | cons ev rest ih =>
    by_cases hp : (fl.isEmpty || fl.any (fun lb => ev.labels.contains lb)) = true
    · rw [List.filter_cons_of_pos (by simpa using hp)]
      rw [collectOccs_cons, collectOccs_cons]
      have hskip1 : (!fl.isEmpty && !(fl.any (fun lb => ev.labels.contains lb)))
          = false := by
        simp only [Bool.or_eq_true] at hp
        simp only [Bool.and_eq_false_iff, Bool.not_eq_false', Bool.not_eq_true']
        tauto
      rw [hskip1]
      have hskip2 : (!(List.isEmpty ([] : List String)) &&
          !(([] : List String).any (fun lb => ev.labels.contains lb))) = false := rfl
      rw [hskip2]
      simp only [Bool.false_eq_true, if_false]
      rw [ih]
    · have hp2 : (fl.isEmpty || fl.any (fun lb => ev.labels.contains lb))
          = false := by simpa using hp
      rw [List.filter_cons_of_neg (by simpa using hp2)]
      rw [collectOccs_cons]
      have hskip1 : (!fl.isEmpty && !(fl.any (fun lb => ev.labels.contains lb)))
          = true := by
        simp only [Bool.or_eq_false_iff] at hp2
        simp only [Bool.and_eq_true, Bool.not_eq_true', Bool.not_eq_false']
        tauto
      rw [hskip1]
      simp only [if_pos rfl, if_true]
      exact ih

/-- C8: label filtering is a logical OR over the filter set — a query
with a non-empty filter behaves exactly like an unfiltered query over
the events that share at least one label with the filter, and an empty
(or absent, both falsy) filter keeps every event. -/
theorem C8_label_filter_or (fuel : Nat) (events : List Event) (s e : Date)
    (fl : List String) :
    get_events_in_range fuel events s e fl =
      get_events_in_range fuel
        (events.filter
          (fun ev => fl.isEmpty || fl.any (fun lb => ev.labels.contains lb)))
        s e [] := by
  unfold get_events_in_range
  rw [collectOccs_filter]

/-- The dates visited by the day walk are exactly the consecutive
ordinals from the cursor up to the window end. -/
theorem walkTimeline_dates {f : Date → ℚ} {e : Date} (he : validDate e) :
    ∀ (n : Nat) (c : Date) (bal : ℚ), validDate c →
      (toOrdinal e + 1 - toOrdinal c).toNat ≤ n →
      ((walkTimeline f e n c bal).1.map (fun pt => toOrdinal pt.date)) =
        (List.range (toOrdinal e + 1 - toOrdinal c).toNat).map
          (fun (k : Nat) => toOrdinal c + (k : Int)) := by
  intro n
  induction n with
  | zero =>
    intro c bal hc hm
    have h0 : (toOrdinal e + 1 - toOrdinal c).toNat = 0 := by omega
    rw [h0, walkTimeline_zero]
    rfl
  | succ n ih =>
    intro c bal hc hm
    by_cases hce : c ≤ e
    · have hord : toOrdinal c ≤ toOrdinal e := toOrdinal_le_of_le hc he hce
      rw [walkTimeline_succ, if_pos hce]
      simp only [List.map_cons]
      rw [ih (nextDay c) (bal + f c) (validDate_nextDay hc)
        (by rw [toOrdinal_nextDay hc]; omega)]
      rw [toOrdinal_nextDay hc]
      have hN : (toOrdinal e + 1 - toOrdinal c).toNat =
          (toOrdinal e + 1 - (toOrdinal c + 1)).toNat + 1 := by omega
      rw [hN, List.range_succ_eq_map]
      simp only [List.map_cons, List.map_map]
      congr 1
      · push_cast
        ring
      · apply List.map_congr_left
        intro k _
        simp only [Function.comp_apply]
        push_cast
        ring
    · have hnc : e < c := date_not_le.mp hce
      have hlt : toOrdinal e < toOrdinal c := toOrdinal_lt_of_lt he hc hnc
      have h0 : (toOrdinal e + 1 - toOrdinal c).toNat = 0 := by omega
      rw [walkTimeline_succ, if_neg hce, h0]
      rfl

/-- C6: for a valid window the timeline has exactly
`(windowEnd - windowStart).days + 1` points, and their dates are the
consecutive calendar days from `windowStart` on (so the walk has no
gaps and visits every day of the window exactly once). -/
theorem C6_timeline_density {fuel : Nat} {events : List Event} {s e : Date}
    {bal : ℚ} {fl : List String} {r : TimelineResult}
    (hs : validDate s) (he : validDate e) (_hse : s ≤ e)
    (h : calculate_balance_timeline fuel events s e bal fl = some r) :
    r.timeline.length = (toOrdinal e - toOrdinal s + 1).toNat ∧
    (r.timeline.map (fun pt => toOrdinal pt.date)) =
      (List.range r.timeline.length).map
        (fun (k : Nat) => toOrdinal s + (k : Int)) := by
  unfold calculate_balance_timeline at h
  simp only [Option.map_eq_some'] at h
  obtain ⟨occs, hocc, rfl⟩ := h
  dsimp only
  have hd := @walkTimeline_dates (byDateAmount occs) e he
    ((toOrdinal e + 1 - toOrdinal s).toNat) s bal hs (le_refl _)
  have hlen := congrArg List.length hd
  simp only [List.length_map, List.length_range] at hlen
  constructor
  · rw [hlen]
    omega
  · rw [hlen]
    exact hd

/-- C6 witness: the spec §8 scenario window [2025-01-01, 2025-01-03]. -/
theorem C6_witness :
    ∃ r, calculate_balance_timeline 5 [evOne] ⟨2025, 1, 1⟩ ⟨2025, 1, 3⟩ 1000 []
        = some r ∧
      r.timeline.length =
        (toOrdinal ⟨2025, 1, 3⟩ - toOrdinal ⟨2025, 1, 1⟩ + 1).toNat ∧
      (r.timeline.map (fun pt => toOrdinal pt.date)) =
        (List.range r.timeline.length).map
          (fun (k : Nat) => toOrdinal ⟨2025, 1, 1⟩ + (k : Int)) := by
  have hsome : (calculate_balance_timeline 5 [evOne] ⟨2025, 1, 1⟩ ⟨2025, 1, 3⟩
      1000 []).isSome = true := by decide
  obtain ⟨r, hr⟩ := Option.isSome_iff_exists.mp hsome
  exact ⟨r, hr, C6_timeline_density (by decide) (by decide) (by decide) hr⟩

theorem byDateAmount_nil (d : Date) : byDateAmount [] d = 0 := rfl

theorem byDateAmount_cons (o : Occurrence) (t : List Occurrence) (d : Date) :
    byDateAmount (o :: t) d =
      (if o.date = d then o.amount else 0) + byDateAmount t d := by
  unfold byDateAmount
  rw [List.filter_cons]
  by_cases hd : o.date = d
  · rw [if_pos (by simpa using hd), if_pos hd]
    simp only [List.map_cons, List.sum_cons]
  · rw [if_neg (by simpa using hd), if_neg hd]
    rw [zero_add]

theorem list_sum_map_add {α : Type} (l : List α) (f g : α → ℚ) :
    (l.map (fun x => f x + g x)).sum = (l.map f).sum + (l.map g).sum := by
  induction l with
  | nil => simp
  | cons a t ih =>
    simp only [List.map_cons, List.sum_cons, ih]
    ring

theorem sum_ite_amount (x : Date) (amt : ℚ) :
    ∀ (days : List Date),
      (days.map (fun d => if x = d then amt else 0)).sum =
        amt * ((days.count x : Nat) : ℚ) := by
  intro days
  induction days with
  | nil => simp
  | cons d t ih =>
    simp only [List.map_cons, List.sum_cons, List.count_cons, ih]
    by_cases hxd : x = d
    · subst hxd
      simp only [if_pos rfl, if_true, beq_self_eq_true]
      push_cast
      ring
    · have hdx : (d == x) = false := beq_eq_false_iff_ne.mpr (fun h => hxd h.symm)
      rw [if_neg hxd, hdx]
      simp only [Bool.false_eq_true, if_false]
      push_cast
      ring

/-- The independent summation: summing the per-day totals over any list
of days gives each occurrence's amount once per appearance of its date
in the day list. -/
theorem sum_byDateAmount :
    ∀ (occs : List Occurrence) (days : List Date),
      (days.map (byDateAmount occs)).sum =
        (occs.map (fun o => o.amount * ((days.count o.date : Nat) : ℚ))).sum := by
  intro occs
  induction occs with
  | nil =>
    intro days
    have hz : days.map (byDateAmount []) = days.map (fun _ => (0 : ℚ)) :=
      List.map_congr_left (fun d _ => rfl)
    rw [hz]
    simp
  | cons o t ih =>
    intro days
    have hpt : days.map (byDateAmount (o :: t)) =
        days.map (fun d => (if o.date = d then o.amount else 0) +
          byDateAmount t d) :=
      List.map_congr_left (fun d _ => byDateAmount_cons o t d)
    rw [hpt, list_sum_map_add, sum_ite_amount, ih days]
    simp only [List.map_cons, List.sum_cons]

theorem walkTimeline_balance (f : Date → ℚ) (e : Date) :
    ∀ (n : Nat) (c : Date) (bal : ℚ),
      (walkTimeline f e n c bal).2 =
        bal + (((walkTimeline f e n c bal).1.map (fun pt => f pt.date)).sum) := by
  intro n
  induction n with
  | zero =>
    intro c bal
    rw [walkTimeline_zero]
    simp
  | succ n ih =>
    intro c bal
    by_cases hce : c ≤ e
    · rw [walkTimeline_succ, if_pos hce]
      dsimp only
      rw [ih (nextDay c) (bal + f c)]
      simp only [List.map_cons, List.sum_cons]
      ring
    · rw [walkTimeline_succ, if_neg hce]
      simp

theorem walkTimeline_count (f : Date → ℚ) {e : Date} (he : validDate e) :
    ∀ (n : Nat) (c : Date) (bal : ℚ) (x : Date), validDate c → validDate x →
      (toOrdinal e + 1 - toOrdinal c).toNat ≤ n →
      ((walkTimeline f e n c bal).1.map (fun pt => pt.date)).count x =
        if c ≤ x ∧ x ≤ e then 1 else 0 := by
  intro n
  induction n with
  | zero =>
    intro c bal x hc hx hm
    rw [walkTimeline_zero]
    have hno : ¬ (c ≤ x ∧ x ≤ e) := by
      rintro ⟨h1, h2⟩
      have ho1 := toOrdinal_le_of_le hc hx h1
      have ho2 := toOrdinal_le_of_le hx he h2
      omega
    rw [if_neg hno]
    rfl
  | succ n ih =>
    intro c bal x hc hx hm
    by_cases hce : c ≤ e
    · have hord : toOrdinal c ≤ toOrdinal e := toOrdinal_le_of_le hc he hce
      rw [walkTimeline_succ, if_pos hce]
      dsimp only
      simp only [List.map_cons, List.count_cons]
      rw [ih (nextDay c) (bal + f c) x (validDate_nextDay hc) hx
        (by rw [toOrdinal_nextDay hc]; omega)]
      by_cases hxc : x = c
      · subst hxc
        have hnd : ¬ (nextDay x ≤ x ∧ x ≤ e) := by
          rintro ⟨h1, _⟩
          have hh := toOrdinal_le_of_le (validDate_nextDay hc) hc h1
          rw [toOrdinal_nextDay hc] at hh
          omega
        have hxx : x ≤ x := by
          change dateLE x x
          unfold dateLE
          omega
        rw [if_neg hnd]
        simp [hxx, hce]
      · have hiff : (nextDay c ≤ x ∧ x ≤ e) ↔ (c ≤ x ∧ x ≤ e) := by
          constructor
          · rintro ⟨h1, h2⟩
            refine ⟨?_, h2⟩
            have hh := toOrdinal_le_of_le (validDate_nextDay hc) hx h1
            rw [toOrdinal_nextDay hc] at hh
            exact (toOrdinal_le_iff hc hx).mp (by omega)
          · rintro ⟨h1, h2⟩
            refine ⟨?_, h2⟩
            have hcx : c < x := by
              rcases date_le_iff_lt_or_eq.mp h1 with hlt | heq
              · exact hlt
              · exact absurd heq.symm hxc
            have hox := toOrdinal_lt_of_lt hc hx hcx
            refine (toOrdinal_le_iff (validDate_nextDay hc) hx).mp ?_
            rw [toOrdinal_nextDay hc]
            omega
        have hbeq : (c == x) = false :=
          beq_eq_false_iff_ne.mpr (fun h => hxc h.symm)
        rw [if_congr hiff rfl rfl, hbeq]
        simp
    · rw [walkTimeline_succ, if_neg hce]
      have hno : ¬ (c ≤ x ∧ x ≤ e) := fun hp =>
        hce (date_le_trans hp.1 hp.2)
      rw [if_neg hno]
      rfl

theorem walkTimeline_last (f : Date → ℚ) (e : Date) :
    ∀ (n : Nat) (c : Date) (bal : ℚ),
      ((walkTimeline f e n c bal).1 = [] → (walkTimeline f e n c bal).2 = bal) ∧
      (∀ pt, (walkTimeline f e n c bal).1.getLast? = some pt →
        pt.balance = round2 (walkTimeline f e n c bal).2) := by
  intro n
  induction n with
  | zero =>
    intro c bal
    rw [walkTimeline_zero]
    exact ⟨fun _ => rfl, fun pt hpt => by simp at hpt⟩
  | succ n ih =>
    intro c bal
    by_cases hce : c ≤ e
    · rw [walkTimeline_succ, if_pos hce]
      dsimp only
      obtain ⟨ih1, ih2⟩ := ih (nextDay c) (bal + f c)
      constructor
      · intro hcontra
        exact absurd hcontra (by simp)
      · intro pt hpt
        rcases hrest : (walkTimeline f e n (nextDay c) (bal + f c)).1 with _ | ⟨q, qs⟩
        · rw [hrest] at hpt
          simp only [List.getLast?_singleton, Option.some.injEq] at hpt
          rw [ih1 hrest, ← hpt]
        · rw [hrest] at hpt
          rw [List.getLast?_cons_cons] at hpt
          exact ih2 pt (by rw [hrest]; exact hpt)
    · rw [walkTimeline_succ, if_neg hce]
      exact ⟨fun _ => rfl, fun pt hpt => by simp at hpt⟩

theorem expand_dates_valid {fuel : Nat} {ev : Event} {s e : Date}
    {l : List Occurrence}
    (hrs : ∀ d, ev.recurrence_start = some d → validDate d)
    (h : expand_recurring_event fuel ev s e = some l) :
    ∀ o ∈ l, validDate o.date := by
  rw [expand_eq] at h
  split at h
  next => exact absurd h (by simp)
  next rs heq =>
    split at h
    next => exact absurd h (by simp)
    next c hff =>
      have hvrs := hrs rs heq
      have hvc := ffwd_valid hvrs hff
      exact emitOccs_dates_valid hvc h

theorem collectOccs_dates_valid {fuel : Nat} {s e : Date} {fl : List String} :
    ∀ {events : List Event} {l : List Occurrence},
      (∀ ev ∈ events, eventDatesValid ev) →
      collectOccs fuel s e fl events = some l →
      ∀ o ∈ l, validDate o.date := by
  intro events
  induction events with
  | nil =>
    intro l _ h
    rw [collectOccs_nil] at h
    cases h
    intro o ho
    exact absurd ho (List.not_mem_nil o)
  | cons ev rest ih =>
    intro l hev h
    have hev1 : eventDatesValid ev := hev ev (by simp)
    have hevr : ∀ ev2 ∈ rest, eventDatesValid ev2 := fun ev2 h2 =>
      hev ev2 (by simp [h2])
    rw [collectOccs_cons] at h
    split at h
    next hskip => exact ih hevr h
    next hskip =>
      split at h
      next hrec =>
        split at h
        next hex => exact absurd h (by simp)
        next occs hex =>
          simp only [Option.map_eq_some'] at h
          obtain ⟨l2, hl2, rfl⟩ := h
          intro o ho
          rcases List.mem_append.mp ho with hin | hin
          · exact expand_dates_valid hev1.2 hex o hin
          · exact ih hevr hl2 o hin
      next hrec =>
        split at h
        next d hed =>
          split at h
          next hwin =>
            simp only [Option.map_eq_some'] at h
            obtain ⟨l2, hl2, rfl⟩ := h
            intro o ho
            rcases List.mem_cons.mp ho with rfl | hin
            · exact hev1.1 d hed
            · exact ih hevr hl2 o hin
          next hwin => exact ih hevr h
        next hed => exact ih hevr h

theorem get_events_in_range_dates_valid {fuel : Nat} {events : List Event}
    {s e : Date} {fl : List String} {occs : List Occurrence}
    (hev : ∀ ev ∈ events, eventDatesValid ev)
    (h : get_events_in_range fuel events s e fl = some occs) :
    ∀ o ∈ occs, validDate o.date := by
  unfold get_events_in_range at h
  simp only [Option.map_eq_some'] at h
  obtain ⟨l0, hl0, rfl⟩ := h
  intro o ho
  exact collectOccs_dates_valid hev hl0 o
    ((List.perm_insertionSort occDateLE l0).mem_iff.mp ho)

/-- C4: for a valid window, the ending balance is the starting balance
plus the sum of the amounts of all returned occurrences (rounded to two
decimals), and it equals the balance of the last timeline point. -/
theorem C4_ending_balance {fuel : Nat} {events : List Event} {s e : Date}
    {bal : ℚ} {fl : List String} {r : TimelineResult}
    (hs : validDate s) (he : validDate e) (hse : s ≤ e)
    (hev : ∀ ev ∈ events, eventDatesValid ev)
    (h : calculate_balance_timeline fuel events s e bal fl = some r) :
    r.ending_balance = round2 (bal + (r.events.map (fun o => o.amount)).sum) ∧
    r.timeline ≠ [] ∧
    (∀ pt, r.timeline.getLast? = some pt → pt.balance = r.ending_balance) := by
  unfold calculate_balance_timeline at h
  simp only [Option.map_eq_some'] at h
  obtain ⟨occs, hocc, rfl⟩ := h
  dsimp only
  have hwin := get_events_in_range_dates hocc
  have hval := get_events_in_range_dates_valid hev hocc
  have hbal := walkTimeline_balance (byDateAmount occs) e
    ((toOrdinal e + 1 - toOrdinal s).toNat) s bal
  have hlast := (walkTimeline_last (byDateAmount occs) e
    ((toOrdinal e + 1 - toOrdinal s).toNat) s bal).2
  have hcount : ∀ o ∈ occs,
      (((walkTimeline (byDateAmount occs) e
        ((toOrdinal e + 1 - toOrdinal s).toNat) s bal).1.map
          (fun pt => pt.date)).count o.date) = 1 := by
    intro o ho
    rw [walkTimeline_count (byDateAmount occs) he
      ((toOrdinal e + 1 - toOrdinal s).toNat) s bal o.date hs (hval o ho)
      (le_refl _)]
    exact if_pos ⟨(hwin o ho).1, (hwin o ho).2⟩
  have hsum : (((walkTimeline (byDateAmount occs) e
      ((toOrdinal e + 1 - toOrdinal s).toNat) s bal).1.map
        (fun pt => byDateAmount occs pt.date)).sum) =
      (occs.map (fun o => o.amount)).sum := by
    have h1 : ((walkTimeline (byDateAmount occs) e
        ((toOrdinal e + 1 - toOrdinal s).toNat) s bal).1.map
          (fun pt => byDateAmount occs pt.date)) =
        (((walkTimeline (byDateAmount occs) e
          ((toOrdinal e + 1 - toOrdinal s).toNat) s bal).1.map
            (fun pt => pt.date)).map (byDateAmount occs)) := by
      rw [List.map_map]
      rfl
    rw [h1, sum_byDateAmount]
    have h2 : occs.map (fun o => o.amount *
        (((((walkTimeline (byDateAmount occs) e
          ((toOrdinal e + 1 - toOrdinal s).toNat) s bal).1.map
            (fun pt => pt.date)).count o.date) : Nat) : ℚ)) =
        occs.map (fun o => o.amount) :=
      List.map_congr_left (fun o ho => by rw [hcount o ho]; push_cast; ring)
    rw [h2]
  refine ⟨?_, ?_, ?_⟩
  · rw [hbal, hsum]
  · have hNge : 1 ≤ (toOrdinal e + 1 - toOrdinal s).toNat := by
      have := toOrdinal_le_of_le hs he hse
      omega
    obtain ⟨M, hM⟩ : ∃ M, (toOrdinal e + 1 - toOrdinal s).toNat = M + 1 :=
      ⟨(toOrdinal e + 1 - toOrdinal s).toNat - 1, by omega⟩
    rw [hM, walkTimeline_succ, if_pos hse]
    simp
  · intro pt hpt
    exact hlast pt hpt

/-- C4 witness: the spec §8 scenario — starting balance 1000, window
[2025-01-01, 2025-01-03], one event of -50 on 2025-01-02. -/
theorem C4_witness :
    ∃ r, calculate_balance_timeline 5 [evOne] ⟨2025, 1, 1⟩ ⟨2025, 1, 3⟩ 1000 []
        = some r ∧
      r.ending_balance =
        round2 (1000 + (r.events.map (fun o => o.amount)).sum) ∧
      r.timeline ≠ [] ∧
      (∀ pt, r.timeline.getLast? = some pt → pt.balance = r.ending_balance) := by
  have hev : ∀ ev ∈ [evOne], eventDatesValid ev := by
    intro ev hmem
    simp only [List.mem_singleton] at hmem
    subst hmem
    constructor
    · intro d hd
      simp only [evOne, Option.some.injEq] at hd
      subst hd
      decide
    · intro d hd
      simp [evOne] at hd
  have hsome : (calculate_balance_timeline 5 [evOne] ⟨2025, 1, 1⟩ ⟨2025, 1, 3⟩
      1000 []).isSome = true := by decide
  obtain ⟨r, hr⟩ := Option.isSome_iff_exists.mp hsome
  exact ⟨r, hr, C4_ending_balance (by decide) (by decide) (by decide) hev hr⟩

/-- C10: with a recognised pattern and a positive (effective) interval,
each advancement step strictly increases the cursor, and the expansion
finishes with some finite fuel; the positivity is necessary — with the
negative-interval fixture the loops never finish, whatever the fuel. -/
theorem C10_termination :
    (∀ (p : String) (i : Int) (c c2 : Date), validDate c → 1 ≤ i →
      nextOccur p i c = some c2 → c < c2) ∧
    (∀ (ev : Event) (s e rs : Date), 1 ≤ effInterval ev →
      ev.recurrence_start = some rs → validDate rs → validDate s →
      validDate e → (∀ re, ev.recurrence_end = some re → validDate re) →
      ∃ fuel occs, expand_recurring_event fuel ev s e = some occs) ∧
    (∀ fuel, expand_recurring_event fuel evNeg ⟨2025, 1, 10⟩ ⟨2025, 1, 20⟩
      = none) := by
  refine ⟨fun p i c c2 hv hi h => nextOccur_lt hv hi h, ?_, ?_⟩
  · intro ev s e rs hi hrs hvrs hvs hve hvre
    have hrecEnd : validDate (ev.recurrence_end.getD e) := by
      cases hre : ev.recurrence_end with
      | none => simpa using hve
      | some re => simpa using hvre re hre
    have hminD : validDate (minDate (ev.recurrence_end.getD e) e) := by
      unfold minDate
      split
      · exact hrecEnd
      · exact hve
    obtain ⟨x, hx, hvx⟩ := @ffwd_term ev.recurrence_pattern (effInterval ev) s
      (ev.recurrence_end.getD e) hvs hi ((toOrdinal s - toOrdinal rs).toNat)
      rs hvrs (le_refl _)
    obtain ⟨l, hl⟩ := @emitOccs_term ev ev.recurrence_pattern (effInterval ev)
      s (minDate (ev.recurrence_end.getD e) e) hminD hi
      ((toOrdinal (minDate (ev.recurrence_end.getD e) e) + 1 -
        toOrdinal x).toNat) x hvx (le_refl _)
    refine ⟨max ((toOrdinal s - toOrdinal rs).toNat + 1)
      ((toOrdinal (minDate (ev.recurrence_end.getD e) e) + 1 -
        toOrdinal x).toNat + 1), l, ?_⟩
    have hx2 := ffwd_mono (Nat.le_max_left
      ((toOrdinal s - toOrdinal rs).toNat + 1)
      ((toOrdinal (minDate (ev.recurrence_end.getD e) e) + 1 -
        toOrdinal x).toNat + 1)) hx
    have hl2 := emitOccs_mono (Nat.le_max_right
      ((toOrdinal s - toOrdinal rs).toNat + 1)
      ((toOrdinal (minDate (ev.recurrence_end.getD e) e) + 1 -
        toOrdinal x).toNat + 1)) hl
    rw [expand_eq]
    simp only [hrs, hx2]
    exact hl2
  · intro fuel
    have key : ∀ (n : Nat) (c : Date), c < (⟨2025, 1, 10⟩ : Date) →
        c ≤ (⟨2025, 1, 20⟩ : Date) →
        ffwd "daily" (-1) ⟨2025, 1, 10⟩ ⟨2025, 1, 20⟩ n c = none := by
      intro n
      induction n with
      | zero =>
        intro c _ _
        rfl
      | succ k ih =>
        intro c h1 h2
        have hstep : nextOccur "daily" (-1) c = some (prevDay c) := rfl
        rw [ffwd_succ, if_pos ⟨h1, h2⟩]
        simp only [hstep]
        exact ih (prevDay c)
          (date_lt_of_lt_of_le (prevDay_lt c)
            (date_le_iff_lt_or_eq.mpr (Or.inl h1)))
          (date_le_trans
            (date_le_iff_lt_or_eq.mpr (Or.inl (prevDay_lt c))) h2)
    have h0 : ffwd evNeg.recurrence_pattern (effInterval evNeg) ⟨2025, 1, 10⟩
        (evNeg.recurrence_end.getD ⟨2025, 1, 20⟩) fuel ⟨2025, 1, 1⟩ = none := by
      show ffwd "daily" (-1) ⟨2025, 1, 10⟩ ⟨2025, 1, 20⟩ fuel ⟨2025, 1, 1⟩
        = none
      exact key fuel ⟨2025, 1, 1⟩ (by decide) (by decide)
    rw [expand_eq]
    simp only [show evNeg.recurrence_start = some ⟨2025, 1, 1⟩ from rfl, h0]

/-- C10 witness: the monthly fixture terminates; the negative-interval
fixture diverges at a concrete fuel. -/
theorem C10_witness :
    (∃ fuel occs, expand_recurring_event fuel evC1 ⟨2024, 1, 1⟩ ⟨2024, 4, 30⟩
      = some occs) ∧
    expand_recurring_event 5 evNeg ⟨2025, 1, 10⟩ ⟨2025, 1, 20⟩ = none := by
  refine ⟨?_, C10_termination.2.2 5⟩
  refine C10_termination.2.1 evC1 ⟨2024, 1, 1⟩ ⟨2024, 4, 30⟩ ⟨2024, 1, 31⟩
    (by decide) rfl (by decide) (by decide) (by decide) ?_
  intro re hre
  simp [evC1] at hre

/-- C8 witness: an event labelled {"rent","fixed"} is included under the
filter {"fixed","other"} and excluded under {"other"}, and each filtered
query equals the unfiltered query over the matching events. -/
theorem C8_witness :
    (get_events_in_range 5 [evLabeled] ⟨2025, 1, 1⟩ ⟨2025, 1, 3⟩
        ["fixed", "other"]).map (fun l => l.map (fun o => o.id)) =
      some [7] ∧
    (get_events_in_range 5 [evLabeled] ⟨2025, 1, 1⟩ ⟨2025, 1, 3⟩
        ["other"]).map (fun l => l.map (fun o => o.id)) = some [] ∧
    get_events_in_range 5 [evLabeled] ⟨2025, 1, 1⟩ ⟨2025, 1, 3⟩
        ["fixed", "other"] =
      get_events_in_range 5
        ([evLabeled].filter (fun ev => (["fixed", "other"] : List String).isEmpty
          || (["fixed", "other"] : List String).any
            (fun lb => ev.labels.contains lb)))
        ⟨2025, 1, 1⟩ ⟨2025, 1, 3⟩ [] :=
  ⟨by decide, by decide,
    C8_label_filter_or 5 [evLabeled] ⟨2025, 1, 1⟩ ⟨2025, 1, 3⟩
      ["fixed", "other"]⟩
